import Mathlib

/-! Shallow embedding of `db/queries/base.py` (DBQuery, InitialColumn, and the
join-path / alias-provenance machinery), together with theorems checking the
natural-language specification of that module against the code.

Modelling conventions:
* Python `None` is `Option.none`; a Python value that may be `None` is typed
  as an `Option`.
* Table instances produced by reflection / `.alias()` are modelled by unique
  natural-number identifiers: the base table is instance `0`, and each fresh
  SQLAlchemy alias object receives the next unused identifier
  (`next_alias`).  Distinct identifiers render distinctly, which mirrors
  SQLAlchemy giving each distinct alias object a distinct rendered name.
* The external collaborator `get_column_name_from_attnum(oid, attnum, ...)`
  is modelled as a function field `column_name : Nat → Nat → String` of
  `DBQuery` (it is pure and idempotent per the spec).
* Runtime errors (`KeyError`, failed `assert`) are modelled with
  `Except String`.
-/

namespace Mathesar

/-- A Python 2-sequence holding a `(table oid, attnum)` column reference;
either a `list` or a `tuple` at the Python level.  `_guarantee_jp_path_tuples`
converts both to a tuple. -/
inductive PyPair where
  | pyList : Nat → Nat → PyPair
  | pyTuple : Nat → Nat → PyPair
  deriving DecidableEq

/-- Models `tuple(edge[i])`: the tuple a `PyPair` converts to. -/
def PyPair.toTuple : PyPair → Nat × Nat
  | .pyList a b => (a, b)
  | .pyTuple a b => (a, b)

/-- A Python value passed as the `alias` argument of `InitialColumn.__init__`:
a string, or some non-string value (modelled by an integer or `None`). -/
inductive PyVal where
  | pyStr : String → PyVal
  | pyInt : Int → PyVal
  | pyNone : PyVal
  deriving DecidableEq

/-- Models `str.strip()` restricted to whitespace stripping of both ends. -/
def pyStrip (s : String) : String :=
  String.mk (((s.toList.dropWhile Char.isWhitespace).reverse.dropWhile
    Char.isWhitespace).reverse)

/-- A normalized join edge: `((left oid, left attnum), (right oid, right attnum))`. -/
abbrev Edge := (Nat × Nat) × (Nat × Nat)

/-- A normalized join path (`jp_path` after `_guarantee_jp_path_tuples`). -/
abbrev JpPath := List Edge

/-- Embeds `_guarantee_jp_path_tuples`: maps a possibly-`None` raw join path to a
tuple of `(tuple, tuple)` pairs; `None` becomes the empty tuple. -/
def _guarantee_jp_path_tuples : Option (List (PyPair × PyPair)) → JpPath
  | some jp_path =>
      jp_path.map (fun edge => (edge.1.toTuple, edge.2.toTuple))
  | none => []

/-- Embeds `InitialColumn` after construction.  The stored `jp_path` attribute is
typed `Option JpPath` because the Python attribute could in principle hold
`None` (which is what `is_base_column` tests for); the constructor in fact
always stores the normalized tuple. -/
structure InitialColumn where
  reloid : Nat
  attnum : Nat
  alias_ : String
  jp_path : Option JpPath
  deriving DecidableEq

/-- Embeds `InitialColumn.__init__`: asserts that `alias` is a non-blank string and
stores the `_guarantee_jp_path_tuples`-normalized join path.  A failed
`assert` is an `AssertionError`. -/
def InitialColumn.init (reloid attnum : Nat) (alias_ : PyVal)
    (jp_path : Option (List (PyPair × PyPair))) : Except String InitialColumn :=
  match alias_ with
  | .pyStr s =>
      if pyStrip s ≠ "" then
        .ok { reloid := reloid, attnum := attnum, alias_ := s,
              jp_path := some (_guarantee_jp_path_tuples jp_path) }
      else
        .error "AssertionError"
  | _ => .error "AssertionError"

/-- Embeds `InitialColumn.is_base_column`: literally `self.jp_path is None`. -/
def InitialColumn.is_base_column (c : InitialColumn) : Bool :=
  c.jp_path.isNone

/-- Embeds `InitialColumn.__eq__`: attribute-wise (dict) equality. -/
def InitialColumn.pyEq (c other : InitialColumn) : Bool :=
  c.reloid == other.reloid && c.attnum == other.attnum &&
    c.alias_ == other.alias_ && c.jp_path == other.jp_path

/-- Embeds `InitialColumn.__hash__`: `hash(frozendict(self.__dict__))` — some fixed
function of the attribute dictionary (its exact value is irrelevant; what
matters is that equal dictionaries hash equally). -/
def InitialColumn.pyHash (c : InitialColumn) : Nat :=
  Nat.pair c.reloid
    (Nat.pair c.attnum
      (Nat.pair (c.alias_.toList.foldl (fun h ch => h * 65599 + ch.toNat) 7)
        (match c.jp_path with
         | none => 0
         | some p =>
             1 + p.foldl
               (fun h e =>
                 Nat.pair h (Nat.pair (Nat.pair e.1.1 e.1.2) (Nat.pair e.2.1 e.2.2)))
               3)))

/-- One entry of the unique-constraint mapping list of a transform:
`{output_alias, input_alias}` with `input_alias` possibly `None`. -/
structure UCMapping where
  output_alias : String
  input_alias : Option String
  deriving DecidableEq

/-- A labeled output column of the built relation:
`right.columns[col_name].label(col.alias)` — the table instance the column is
taken from, the physical column name, and the label. -/
structure LabeledColumn where
  table_instance : Nat
  column_name : String
  label : String
  deriving DecidableEq

/-- The key the source stores in `jp_path_unique_set`:
`f"{left_col}, {right_col}"`.  Since distinct table instances render
distinctly, the string is modelled by the quadruple
(left instance, left column name, right instance, right column name). -/
structure JoinKey where
  left : Nat
  left_name : String
  right : Nat
  right_name : String
  deriving DecidableEq

/-- One `from_clause.join(right, onclause=left_col == right_col, isouter=True)`
clause appended to the growing from-clause. -/
structure JoinClause where
  right_table : Nat
  left_col : Nat × String
  right_col : Nat × String
  isouter : Bool
  deriving DecidableEq

/-- The mutable state of one `initial_relation` build:
`jp_path_alias_map` (prefix ↦ table instance), the id that the next fresh
`.alias()` call would receive, `jp_path_unique_set`, and the join clauses of
the growing `from_clause` (the base table itself is implicit, instance `0`). -/
structure BuildState where
  jp_path_alias_map : List (JpPath × Nat)
  next_alias : Nat
  jp_path_unique_set : List JoinKey
  from_clause : List JoinClause
  deriving DecidableEq

/-- The relation produced by `initial_relation` (the select of labeled
columns from the joined from-clause, wrapped as a CTE). -/
abbrev Relation := BuildState × List LabeledColumn

/-- A transformation step, duck-typed in the source; here a record of its
contract methods (`apply` is the step of `apply_transformations`). -/
structure Transform where
  get_output_aliases : List String → List String
  get_unique_constraint_mappings : List String → List UCMapping
  map_of_output_alias_to_input_alias : List (String × Option String)
  apply : Relation → Relation

/-- Embeds `DBQuery` (engine / name / metadata collaborators are modelled by the
pure `column_name` resolver; `transformations=None` is normalized to the
empty sequence by `__init__`, so the field is a plain list). -/
structure DBQuery where
  base_table_oid : Nat
  initial_columns : List InitialColumn
  transformations : List Transform
  column_name : Nat → Nat → String

/-- Embeds `DBQuery.initial_aliases`. -/
def DBQuery.initial_aliases (q : DBQuery) : List String :=
  q.initial_columns.map InitialColumn.alias_

/-- Embeds `DBQuery.get_input_aliases`: for index 0 the initial aliases, otherwise
the fold of the `get_output_aliases` of each earlier transform over them. -/
def DBQuery.get_input_aliases (q : DBQuery) (ix_of_transform : Nat) : List String :=
  if ix_of_transform = 0 then
    q.initial_aliases
  else
    (q.transformations.take ix_of_transform).foldl
      (fun input_aliases transform => transform.get_output_aliases input_aliases)
      q.initial_aliases

/-- The inner `for uc_mapping in uc_mappings` loop of
`_get_initial_alias_by_input_alias`: first mapping whose `output_alias`
equals the current alias. -/
def findUcMapping : List UCMapping → String → Option UCMapping
  | [], _ => none
  | m :: ms, a => if m.output_alias = a then some m else findUcMapping ms a

/-- The backward walk of `_get_initial_alias_by_input_alias` over the
(already reversed) per-transform uniqueness-mapping lists: replace the alias
by the `input_alias` of the matching mapping, fail on `None`, pass through
untouched aliases. -/
def ucWalk : List (List UCMapping) → String → Option String
  | [], a => some a
  | ms :: rest, a =>
      match findUcMapping ms a with
      | some m =>
          match m.input_alias with
          | none => none
          | some b => ucWalk rest b
      | none => ucWalk rest a

/-- Embeds `DBQuery._get_initial_alias_by_input_alias`.  Note the source computes
the `get_unique_constraint_mappings` of every transform at `input_aliases`, which
is bound to `initial_aliases` and never updated inside the comprehension. -/
def DBQuery._get_initial_alias_by_input_alias (q : DBQuery) (ix_of_transform : Nat)
    (input_alias : String) : Option String :=
  if ix_of_transform = 0 then
    some input_alias
  else
    let transforms := q.transformations.take ix_of_transform
    let input_aliases := q.initial_aliases
    let uc_mappings_for_each_transform :=
      transforms.map (fun transform =>
        transform.get_unique_constraint_mappings input_aliases)
    ucWalk uc_mappings_for_each_transform.reverse input_alias

/-- The `for initial_column in self.initial_columns` lookup loop of
`_get_initial_column_by_initial_column_alias`. -/
def findInitialColumn : List InitialColumn → String → Option InitialColumn
  | [], _ => none
  | c :: cs, a => if c.alias_ = a then some c else findInitialColumn cs a

/-- Embeds `DBQuery._get_initial_column_by_initial_column_alias`: first initial
column with the given alias, else `None`. -/
def DBQuery._get_initial_column_by_initial_column_alias (q : DBQuery)
    (a : String) : Option InitialColumn :=
  findInitialColumn q.initial_columns a

/-- Embeds `DBQuery.get_initial_column_by_input_alias`. -/
def DBQuery.get_initial_column_by_input_alias (q : DBQuery) (ix_of_transform : Nat)
    (input_alias : String) : Option InitialColumn :=
  match q._get_initial_alias_by_input_alias ix_of_transform input_alias with
  | none => none
  | some a => q._get_initial_column_by_initial_column_alias a

/-- Modelled from the spec: the uniqueness-mapping list the specification
prescribes for each prefix step — the mappings of step `i` computed at
`inputAliasesBefore(i)` (the aliases actually available as its input). -/
def DBQuery.spec_uc_mappings_per_step (q : DBQuery) (ix_of_transform : Nat) :
    List (List UCMapping) :=
  (List.range ix_of_transform).map (fun i =>
    match q.transformations.get? i with
    | some t => t.get_unique_constraint_mappings (q.get_input_aliases i)
    | none => [])

/-- Modelled from the spec: the backward provenance walk as described by the
specification — identical to the code except that the uniqueness mappings of each
prefix step are computed at the own input aliases of that step. -/
def DBQuery.spec_get_initial_alias_by_input_alias (q : DBQuery)
    (ix_of_transform : Nat) (input_alias : String) : Option String :=
  if ix_of_transform = 0 then
    some input_alias
  else
    ucWalk (q.spec_uc_mappings_per_step ix_of_transform).reverse input_alias

/-- Python `dict` lookup (`m[k]` / membership); at most one binding per key. -/
def pyDictGet : List (String × Option String) → String → Option (Option String)
  | [], _ => none
  | kv :: m, k => if kv.1 = k then some kv.2 else pyDictGet m k

/-- Whether a Python dict has a binding for a key. -/
def pyDictHasKey : List (String × Option String) → String → Bool
  | [], _ => false
  | kv :: m, k => if kv.1 = k then true else pyDictHasKey m k

/-- Binding a key in a Python dict: overwrite in place if present, else
append at the end (insertion order preserved). -/
def pyDictSet (m : List (String × Option String)) (k : String)
    (v : Option String) : List (String × Option String) :=
  if pyDictHasKey m k then
    m.map (fun kv => if kv.1 = k then (k, v) else kv)
  else
    m ++ [(k, v)]

/-- Python `m | other` on dicts: entries of `other` bound left to right into
`m`, later bindings overriding earlier ones. -/
def pyDictUnion (m other : List (String × Option String)) :
    List (String × Option String) :=
  other.foldl (fun acc kv => pyDictSet acc kv.1 kv.2) m

/-- Embeds `DBQuery.map_of_output_alias_to_input_alias`: starts from the empty dict
and unions the own map of every transform, left to right. -/
def DBQuery.map_of_output_alias_to_input_alias (q : DBQuery) :
    List (String × Option String) :=
  q.transformations.foldl
    (fun m transform => pyDictUnion m transform.map_of_output_alias_to_input_alias)
    []

/-- Embeds `DBQuery.get_input_alias_for_output_alias`: `dict.get`, which collapses
a missing key and a `None` value both to `None`. -/
def DBQuery.get_input_alias_for_output_alias (q : DBQuery)
    (output_alias : String) : Option String :=
  match pyDictGet q.map_of_output_alias_to_input_alias output_alias with
  | some v => v
  | none => none

/-- Association lookup in `jp_path_alias_map`. -/
def lookupJp : List (JpPath × Nat) → JpPath → Option Nat
  | [], _ => none
  | e :: m, p => if e.1 = p then some e.2 else lookupJp m p

/-- The second `_guarantee_jp_path_tuples` application performed inside
`initial_relation` on the already-normalized stored path: on tuples the
per-edge conversion is the identity, and `None` maps to the empty tuple. -/
def normalizedJpPath : Option JpPath → JpPath
  | some jp_path => jp_path.map (fun edge => (edge.1, edge.2))
  | none => []

/-- The normalized path `initial_relation` walks for a column. -/
def InitialColumn.normPath (c : InitialColumn) : JpPath :=
  normalizedJpPath c.jp_path

/-- The dedup key computed for one edge:
`f"{left_col}, {right_col}"` with `left_col = left.columns[left_col_name]`
and `right_col = right.columns[right_col_name]`. -/
def mkJoinKey (name : Nat → Nat → String) (left right : Nat) (jp : Edge) : JoinKey :=
  ⟨left, name jp.1.1 jp.1.2, right, name jp.2.1 jp.2.2⟩

/-- The `if join_columns not in jp_path_unique_set` block: record the key and
append the outer join, or skip if the key was already seen. -/
def emitJoin (name : Nat → Nat → String) (st : BuildState) (left right : Nat)
    (jp : Edge) : BuildState :=
  let join_columns := mkJoinKey name left right jp
  if join_columns ∈ st.jp_path_unique_set then
    st
  else
    { st with
      jp_path_unique_set := join_columns :: st.jp_path_unique_set,
      from_clause := st.from_clause ++
        [⟨right, (left, join_columns.left_name),
          (right, join_columns.right_name), true⟩] }

/-- The `if right_table in jp_path_alias_map` block: reuse the cached table
instance for the prefix, or create a fresh alias for the target table of the edge
and record it under the prefix. -/
def resolveRight (st : BuildState) (right_table_key : JpPath) : BuildState × Nat :=
  match lookupJp st.jp_path_alias_map right_table_key with
  | some r => (st, r)
  | none =>
      ({ st with
         jp_path_alias_map := st.jp_path_alias_map ++ [(right_table_key, st.next_alias)],
         next_alias := st.next_alias + 1 },
       st.next_alias)

/-- The `for i, jp in enumerate(jp_path)` loop of `_process_initial_column`.
`done` is the prefix `jp_path[:i]` already processed and `rest` the remaining
edges; `right` is the current value of the loop variable `right` (initially
the base table).  A missing parent prefix raises `KeyError`. -/
def processEdges (name : Nat → Nat → String) :
    JpPath → List Edge → Nat → BuildState → Except String (BuildState × Nat)
  | _done, [], right, st => .ok (st, right)
  | done, jp :: rest, _right, st =>
      match lookupJp st.jp_path_alias_map done with
      | none => .error "KeyError"
      | some left =>
          let rr := resolveRight st (done ++ [jp])
          let st2 := emitJoin name rr.1 left rr.2 jp
          processEdges name (done ++ [jp]) rest rr.2 st2

/-- Embeds `_process_initial_column`: walk the join path of the column, then
label the column of the finally-resolved table instance with its alias. -/
def _process_initial_column (name : Nat → Nat → String) (st : BuildState)
    (col : InitialColumn) : Except String (BuildState × LabeledColumn) :=
  let col_name := name col.reloid col.attnum
  let jp_path := normalizedJpPath col.jp_path
  match processEdges name [] jp_path 0 st with
  | .error e => .error e
  | .ok (st1, right) => .ok (st1, ⟨right, col_name, col.alias_⟩)

/-- The list comprehension `[_process_initial_column(col) for col in
self.initial_columns]` threading the build state. -/
def processColumns (name : Nat → Nat → String) :
    List InitialColumn → BuildState → List LabeledColumn →
      Except String (BuildState × List LabeledColumn)
  | [], st, outs => .ok (st, outs)
  | c :: cs, st, outs =>
      match _process_initial_column name st c with
      | .error e => .error e
      | .ok (st1, out) => processColumns name cs st1 (outs ++ [out])

/-- Embeds `DBQuery.initial_relation`: seed the alias map with the base table under
the empty prefix, process every initial column, and wrap the labeled
selection as a relation. -/
def DBQuery.initial_relation (q : DBQuery) : Except String Relation :=
  processColumns q.column_name q.initial_columns
    { jp_path_alias_map := [([], 0)], next_alias := 1,
      jp_path_unique_set := [], from_clause := [] }
    []

/-- Modelled from the spec: `apply_transformations` (defined in
`db/transforms/operations/apply`, not part of this excerpt) folds the
`apply` of each step over the relation, left to right, in list order. -/
def apply_transformations (relation : Relation) (transformations : List Transform) :
    Relation :=
  transformations.foldl (fun rel t => t.apply rel) relation

/-- Embeds `DBQuery.transformed_relation`: apply the transformation chain if there
is one, otherwise return the initial relation itself. -/
def DBQuery.transformed_relation (q : DBQuery) : Except String Relation :=
  if q.transformations.isEmpty then
    q.initial_relation
  else
    q.initial_relation.map (fun rel => apply_transformations rel q.transformations)

/-- The nonempty prefixes visited when the edge loop runs with processed
prefix `done` and remaining edges `rest`: `done ++ [e₁]`,
`done ++ [e₁, e₂]`, … -/
def prefixesFrom : JpPath → List Edge → List JpPath
  | _done, [] => []
  | done, e :: rest => (done ++ [e]) :: prefixesFrom (done ++ [e]) rest

/-- All distinct-or-not nonempty join-path prefixes ("tree edges") traversed
while building the relation for the given initial columns. -/
def traversedPrefixes (cols : List InitialColumn) : List JpPath :=
  cols.flatMap (fun c => prefixesFrom [] c.normPath)

/-- The invariant `initial_relation` maintains on its build state:
the alias map binds each prefix at most once (and the empty prefix to the
base table), every bound instance id is fresh below `next_alias` and ids are
pairwise distinct, a bound child prefix always has its parent bound, the
dedup set holds exactly the join keys of bound (parent, child) prefix pairs,
and the join clauses are in bijection with the nonempty bound prefixes. -/
structure MapInv (name : Nat → Nat → String) (st : BuildState) : Prop where
  root : lookupJp st.jp_path_alias_map [] = some 0
  keys_nodup : (st.jp_path_alias_map.map Prod.fst).Nodup
  vals_lt : ∀ pr ∈ st.jp_path_alias_map, pr.2 < st.next_alias
  vals_nodup : (st.jp_path_alias_map.map Prod.snd).Nodup
  parent_present : ∀ (p : JpPath) (e : Edge),
    (lookupJp st.jp_path_alias_map (p ++ [e])).isSome →
    (lookupJp st.jp_path_alias_map p).isSome
  seen_iff : ∀ k : JoinKey, k ∈ st.jp_path_unique_set ↔
    ∃ (p : JpPath) (e : Edge) (l r : Nat),
      lookupJp st.jp_path_alias_map p = some l ∧
      lookupJp st.jp_path_alias_map (p ++ [e]) = some r ∧
      k = mkJoinKey name l r e
  joins_card : st.from_clause.length + 1 = st.jp_path_alias_map.length
  joins_rights_nodup : (st.from_clause.map JoinClause.right_table).Nodup
  joins_rights_lt : ∀ j ∈ st.from_clause, j.right_table < st.next_alias

/-- The seed build state of `initial_relation`: the empty prefix is bound to
the base table (instance `0`), nothing else. -/
def initState : BuildState :=
  { jp_path_alias_map := [([], 0)], next_alias := 1,
    jp_path_unique_set := [], from_clause := [] }

/-- Example transform: renames the single input alias to `b`; its
uniqueness mappings depend on the input-alias list it is given. -/
def exT1 : Transform :=
  { get_output_aliases := fun _ => ["b"],
    get_unique_constraint_mappings := fun ia => [⟨"b", ia.head?⟩, ⟨"a", none⟩],
    map_of_output_alias_to_input_alias := [("b", some "a")],
    apply := id }

/-- Example transform: renames the single input alias to `c`; its
uniqueness mappings depend on the input-alias list it is given. -/
def exT2 : Transform :=
  { get_output_aliases := fun _ => ["c"],
    get_unique_constraint_mappings := fun ia => [⟨"c", ia.head?⟩],
    map_of_output_alias_to_input_alias := [("c", some "b")],
    apply := id }

/-- Example aggregation-like transform: its only output alias has no
uniqueness-preserving input alias. -/
def exTagg : Transform :=
  { get_output_aliases := fun _ => ["agg_out"],
    get_unique_constraint_mappings := fun _ => [⟨"agg_out", none⟩],
    map_of_output_alias_to_input_alias := [("agg_out", none)],
    apply := id }

/-- Example base-table initial column with alias `a`. -/
def exCol : InitialColumn := ⟨10, 1, "a", some []⟩

/-- Example query: one initial column, two renaming transforms. -/
def exQ : DBQuery := ⟨10, [exCol], [exT1, exT2], fun _ _ => "col"⟩

/-- Example query with a single aggregation-like transform. -/
def exQagg : DBQuery := ⟨10, [exCol], [exTagg], fun _ _ => "col"⟩

/-- Example query with two base columns and no transformations. -/
def exQ0 : DBQuery :=
  ⟨10, [⟨10, 1, "id_out", some []⟩, ⟨10, 2, "name_out", some []⟩], [],
    fun _ _ => "col"⟩

/-! Theorems checking the claims, with their supporting lemmas. -/

/-- C3: per the claim, `is_base_column` should be true exactly when the join
path is empty.  In the code the constructor always normalizes `jp_path`
through `_guarantee_jp_path_tuples`, which never returns `None`, so the
test `self.jp_path is None` is false even for a column constructed with no
join path: a base column does not report itself as a base column. -/
theorem c3_is_base_column_false_for_empty_path :
    (InitialColumn.init 10 1 (.pyStr "a") none).map InitialColumn.is_base_column
      = .ok false ∧
    (InitialColumn.init 20 5 (.pyStr "city_out")
        (some [(.pyTuple 10 3, .pyTuple 20 1)])).map InitialColumn.is_base_column
      = .ok false := by
  constructor <;> rfl

/-- C9: constructing an `InitialColumn` whose alias is not a string, or is a
blank string, fails at construction with an `AssertionError`; every
non-blank string alias is accepted and stored unchanged. -/
theorem c9_alias_validated_at_construction
    (reloid attnum : Nat) (v : PyVal) (s : String)
    (jp jp2 : Option (List (PyPair × PyPair)))
    (hbad : (∀ t : String, v ≠ .pyStr t) ∨ ∃ t, v = .pyStr t ∧ pyStrip t = "")
    (hgood : pyStrip s ≠ "") :
    InitialColumn.init reloid attnum v jp = .error "AssertionError" ∧
    ∃ c, InitialColumn.init reloid attnum (.pyStr s) jp2 = .ok c ∧ c.alias_ = s := by
  constructor
  · rcases hbad with h | ⟨t, rfl, ht⟩
    · cases v with
      | pyStr t => exact absurd rfl (h t)
      | pyInt n => rfl
      | pyNone => rfl
    · simp [InitialColumn.init, ht]
  · exact ⟨⟨reloid, attnum, s, some (_guarantee_jp_path_tuples jp2)⟩,
      by simp [InitialColumn.init, hgood], rfl⟩

/-- Witness for C9: a `None` alias is rejected, alias `"ok"` is accepted and
stored unchanged. -/
theorem c9_witness :
    InitialColumn.init 1 1 .pyNone none = .error "AssertionError" ∧
    ∃ c, InitialColumn.init 1 1 (.pyStr "ok") none = .ok c ∧ c.alias_ = "ok" :=
  c9_alias_validated_at_construction 1 1 .pyNone "ok" none none
    (Or.inl (fun _ h => PyVal.noConfusion h)) (by decide)

/-- C10: the constructor never stores `None` in `jp_path`: it normalizes a
supplied path into a tuple of `(tuple, tuple)` edge pairs and normalizes
`None` to the empty tuple, so columns built from the same endpoints given
as lists versus tuples have equal `jp_path` fields and compare equal with
equal hashes. -/
theorem c10_jp_path_normalized
    (reloid attnum : Nat) (s : String) (raw raw2 : List (PyPair × PyPair))
    (c c0 c2 : InitialColumn)
    (h : InitialColumn.init reloid attnum (.pyStr s) (some raw) = .ok c)
    (h0 : InitialColumn.init reloid attnum (.pyStr s) none = .ok c0)
    (h2 : InitialColumn.init reloid attnum (.pyStr s) (some raw2) = .ok c2)
    (hsame : raw.map (fun e => (e.1.toTuple, e.2.toTuple))
           = raw2.map (fun e => (e.1.toTuple, e.2.toTuple))) :
    c.jp_path ≠ none ∧
    c.jp_path = some (raw.map (fun e => (e.1.toTuple, e.2.toTuple))) ∧
    c0.jp_path = some [] ∧
    c2 = c ∧ c.pyEq c2 = true ∧ c.pyHash = c2.pyHash := by
  by_cases hs : pyStrip s ≠ ""
  · simp only [InitialColumn.init, if_pos hs, Except.ok.injEq] at h h0 h2
    subst h h0 h2
    refine ⟨by simp [_guarantee_jp_path_tuples], by simp [_guarantee_jp_path_tuples], rfl, ?_, ?_, ?_⟩
    · simp [_guarantee_jp_path_tuples, hsame]
    · simp [InitialColumn.pyEq, _guarantee_jp_path_tuples, hsame]
    · simp [InitialColumn.pyHash, _guarantee_jp_path_tuples, hsame]
  · simp [InitialColumn.init, if_neg hs] at h

/-- Witness for C10: the same edge given with list endpoints and with tuple
endpoints yields equal columns with equal hashes. -/
theorem c10_witness :
    ∃ c c2 : InitialColumn,
      InitialColumn.init 20 5 (.pyStr "city_out")
        (some [(.pyList 10 3, .pyList 20 1)]) = .ok c ∧
      InitialColumn.init 20 5 (.pyStr "city_out")
        (some [(.pyTuple 10 3, .pyTuple 20 1)]) = .ok c2 ∧
      c.jp_path = some [((10, 3), (20, 1))] ∧ c2 = c ∧
      c.pyEq c2 = true ∧ c.pyHash = c2.pyHash := by
  have H := c10_jp_path_normalized 20 5 "city_out"
    [(.pyList 10 3, .pyList 20 1)] [(.pyTuple 10 3, .pyTuple 20 1)]
    ⟨20, 5, "city_out", some [((10, 3), (20, 1))]⟩
    ⟨20, 5, "city_out", some []⟩
    ⟨20, 5, "city_out", some [((10, 3), (20, 1))]⟩
    rfl rfl rfl rfl
  exact ⟨_, _, rfl, rfl, H.2.1, H.2.2.2.1, H.2.2.2.2.1, H.2.2.2.2.2⟩

/-- The backward walk over a concatenation: first walk the front part; if it
fails the whole walk fails, otherwise continue on the back part. -/
theorem ucWalk_append (xs ys : List (List UCMapping)) (a : String) :
    ucWalk (xs ++ ys) a =
      match ucWalk xs a with
      | some b => ucWalk ys b
      | none => none := by
  induction xs generalizing a with
  | nil => simp [ucWalk]
  | cons ms rest ih =>
      simp only [List.cons_append, ucWalk]
      cases hf : findUcMapping ms a with
      | none => simp [ih a]
      | some m =>
          cases hi : m.input_alias with
          | none => simp [hi]
          | some b => simp [hi, ih b]

/-- C4: if during the backward walk the mapping matching the current alias
at some step has a null `input_alias`, tracing returns `None` immediately —
no initial column is ever returned — for every chain of transforms and
every starting alias. -/
theorem c4_null_mapping_stops_trace
    (q : DBQuery) (ix : Nat) (a b : String) (m : UCMapping)
    (pre suf : List (List UCMapping)) (ms : List UCMapping)
    (hix : ix ≠ 0)
    (hsplit : ((q.transformations.take ix).map (fun t =>
        t.get_unique_constraint_mappings q.initial_aliases)).reverse
      = pre ++ ms :: suf)
    (hwalk : ucWalk pre a = some b)
    (hfind : findUcMapping ms b = some m)
    (hnull : m.input_alias = none) :
    q._get_initial_alias_by_input_alias ix a = none ∧
    q.get_initial_column_by_input_alias ix a = none := by
  have h1 : q._get_initial_alias_by_input_alias ix a = none := by
    simp only [DBQuery._get_initial_alias_by_input_alias, if_neg hix]
    rw [hsplit, ucWalk_append, hwalk]
    simp [ucWalk, hfind, hnull]
  refine ⟨h1, ?_⟩
  simp [DBQuery.get_initial_column_by_input_alias, h1]

/-- Witness for C4: tracing the output of an aggregation-like transform
whose mapping declares a null input alias yields no provenance. -/
theorem c4_witness :
    exQagg._get_initial_alias_by_input_alias 1 "agg_out" = none ∧
    exQagg.get_initial_column_by_input_alias 1 "agg_out" = none :=
  c4_null_mapping_stops_trace exQagg 1 "agg_out" "agg_out" ⟨"agg_out", none⟩
    [] [] [⟨"agg_out", none⟩] (by decide) rfl rfl rfl rfl

/-- A list of initial columns none of which carries the wanted alias yields
no lookup result. -/
theorem findInitialColumn_eq_none (cs : List InitialColumn) (a : String)
    (h : ∀ c ∈ cs, c.alias_ ≠ a) : findInitialColumn cs a = none := by
  induction cs with
  | nil => rfl
  | cons c cs ih =>
      simp only [findInitialColumn, if_neg (h c (List.mem_cons_self c cs))]
      exact ih fun x hx => h x (List.mem_cons_of_mem c hx)

/-- C7: a step whose uniqueness-mapping list defines no mapping for the
current alias leaves the alias unchanged for the next earlier step, and the
alias reached by the walk is resolved against the initial columns by exact
alias match, `None` when no initial column carries it. -/
theorem c7_passthrough_and_exact_resolution
    (q : DBQuery) (ix : Nat) (a r : String)
    (ms : List UCMapping) (rest : List (List UCMapping))
    (hnone : findUcMapping ms a = none)
    (hres : q._get_initial_alias_by_input_alias ix a = some r) :
    ucWalk (ms :: rest) a = ucWalk rest a ∧
    q.get_initial_column_by_input_alias ix a
      = findInitialColumn q.initial_columns r ∧
    ((∀ c ∈ q.initial_columns, c.alias_ ≠ r) →
      q.get_initial_column_by_input_alias ix a = none) := by
  refine ⟨by simp [ucWalk, hnone], ?_, ?_⟩
  · simp [DBQuery.get_initial_column_by_input_alias, hres,
      DBQuery._get_initial_column_by_initial_column_alias]
  · intro hno
    simp [DBQuery.get_initial_column_by_input_alias, hres,
      DBQuery._get_initial_column_by_initial_column_alias,
      findInitialColumn_eq_none q.initial_columns r hno]

/-- Witness for C7: an alias no step mentions passes through the whole walk
unchanged and is resolved among the initial columns (here: not found). -/
theorem c7_witness :
    ucWalk ([⟨"b", some "a"⟩, ⟨"a", none⟩] :: []) "zz" = ucWalk [] "zz" ∧
    exQ.get_initial_column_by_input_alias 1 "zz"
      = findInitialColumn exQ.initial_columns "zz" :=
  ⟨(c7_passthrough_and_exact_resolution exQ 1 "zz" "zz"
      [⟨"b", some "a"⟩, ⟨"a", none⟩] [] rfl rfl).1,
   (c7_passthrough_and_exact_resolution exQ 1 "zz" "zz"
      [⟨"b", some "a"⟩, ⟨"a", none⟩] [] rfl rfl).2.1⟩

/-- Lemma: `get_input_aliases` is the left fold of `get_output_aliases` over the
initial aliases, for every index. -/
theorem get_input_aliases_eq_fold (q : DBQuery) (n : Nat) :
    q.get_input_aliases n
      = (q.transformations.take n).foldl
          (fun ia t => t.get_output_aliases ia) q.initial_aliases := by
  cases n with
  | zero => simp [DBQuery.get_input_aliases]
  | succ n => simp [DBQuery.get_input_aliases]

/-- C5: `get_input_aliases 0` is exactly the initial alias list in order,
and `get_input_aliases (n+1)` is the declared output aliases of step `n`
applied to `get_input_aliases n`; equivalently the left fold of the
`get_output_aliases` of each step over the initial aliases. -/
theorem c5_input_aliases_recurrence
    (q : DBQuery) (n : Nat) (hn : n < q.transformations.length) :
    q.get_input_aliases 0 = q.initial_aliases ∧
    q.get_input_aliases (n + 1)
      = (q.transformations.get ⟨n, hn⟩).get_output_aliases
          (q.get_input_aliases n) ∧
    q.get_input_aliases (n + 1)
      = (q.transformations.take (n + 1)).foldl
          (fun ia t => t.get_output_aliases ia) q.initial_aliases := by
  refine ⟨by simp [DBQuery.get_input_aliases], ?_, get_input_aliases_eq_fold q (n + 1)⟩
  rw [get_input_aliases_eq_fold q (n + 1), get_input_aliases_eq_fold q n,
    List.take_succ, List.foldl_append]
  simp [List.getElem?_eq_getElem hn, List.get_eq_getElem]

/-- Witness for C5 on a two-transform query. -/
theorem c5_witness :
    exQ.get_input_aliases 0 = exQ.initial_aliases ∧
    exQ.get_input_aliases 2
      = (exQ.transformations.get ⟨1, by decide⟩).get_output_aliases
          (exQ.get_input_aliases 1) ∧
    exQ.get_input_aliases 2
      = (exQ.transformations.take 2).foldl
          (fun ia t => t.get_output_aliases ia) exQ.initial_aliases :=
  c5_input_aliases_recurrence exQ 1 (by decide)

/-- Python dict lookup over a concatenation: first binding wins. -/
theorem pyDictGet_append (m m2 : List (String × Option String)) (k : String) :
    pyDictGet (m ++ m2) k =
      match pyDictGet m k with
      | some v => some v
      | none => pyDictGet m2 k := by
  induction m with
  | nil => simp [pyDictGet]
  | cons kv m ih =>
      by_cases h : kv.1 = k
      · simp [pyDictGet, h]
      · simp [pyDictGet, h, ih]

/-- Absent key: lookup yields nothing. -/
theorem pyDictHasKey_false_get (m : List (String × Option String)) (k : String)
    (h : pyDictHasKey m k = false) : pyDictGet m k = none := by
  induction m with
  | nil => rfl
  | cons kv m ih =>
      simp only [pyDictHasKey] at h
      by_cases hk : kv.1 = k
      · rw [if_pos hk] at h; exact absurd h (by simp)
      · rw [if_neg hk] at h; simp [pyDictGet, hk, ih h]

/-- Overwriting a present key in place: lookup finds the new value. -/
theorem pyDictGet_overwrite (m : List (String × Option String)) (k : String)
    (v : Option String) (h : pyDictHasKey m k = true) :
    pyDictGet (m.map (fun kv => if kv.1 = k then (k, v) else kv)) k = some v := by
  induction m with
  | nil => simp [pyDictHasKey] at h
  | cons kv m ih =>
      by_cases hk : kv.1 = k
      · simp [pyDictGet, hk]
      · simp only [pyDictHasKey, if_neg hk] at h
        simp [pyDictGet, hk, ih h]

/-- Overwriting a key leaves the lookup of any other key unchanged. -/
theorem pyDictGet_overwrite_ne (m : List (String × Option String)) (k k2 : String)
    (v : Option String) (h2 : k2 ≠ k) :
    pyDictGet (m.map (fun kv => if kv.1 = k then (k, v) else kv)) k2
      = pyDictGet m k2 := by
  induction m with
  | nil => rfl
  | cons kv m ih =>
      by_cases hk : kv.1 = k
      · simp [pyDictGet, hk, Ne.symm h2, ih]
      · by_cases hk2 : kv.1 = k2
        · simp [pyDictGet, hk, hk2, h2]
        · simp [pyDictGet, hk, hk2, ih]

/-- Binding a key then looking it up yields the bound value. -/
theorem pyDictGet_set_eq (m : List (String × Option String)) (k : String)
    (v : Option String) : pyDictGet (pyDictSet m k v) k = some v := by
  unfold pyDictSet
  by_cases h : pyDictHasKey m k
  · rw [if_pos h]; exact pyDictGet_overwrite m k v h
  · rw [if_neg h, pyDictGet_append,
      pyDictHasKey_false_get m k (by simpa using h)]
    simp [pyDictGet]

/-- Binding a key leaves the lookup of any other key unchanged. -/
theorem pyDictGet_set_ne (m : List (String × Option String)) (k k2 : String)
    (v : Option String) (h2 : k2 ≠ k) :
    pyDictGet (pyDictSet m k v) k2 = pyDictGet m k2 := by
  unfold pyDictSet
  by_cases h : pyDictHasKey m k
  · rw [if_pos h]; exact pyDictGet_overwrite_ne m k k2 v h2
  · rw [if_neg h, pyDictGet_append]
    cases hg : pyDictGet m k2 <;> simp [hg, pyDictGet, Ne.symm h2]

/-- Lookup in a Python dict union: the last binding for the key in the right
dict wins; otherwise fall back to the left dict. -/
theorem pyDictGet_union (m other : List (String × Option String)) (k : String) :
    pyDictGet (pyDictUnion m other) k =
      match pyDictGet other.reverse k with
      | some v => some v
      | none => pyDictGet m k := by
  induction other using List.reverseRecOn with
  | nil => simp [pyDictUnion, pyDictGet]
  | append_singleton l kv ih =>
      have hu : pyDictUnion m (l ++ [kv]) = pyDictSet (pyDictUnion m l) kv.1 kv.2 := by
        simp [pyDictUnion, List.foldl_append]
      rw [hu, List.reverse_append]
      by_cases hk : kv.1 = k
      · rw [hk, pyDictGet_set_eq]
        simp [pyDictGet, hk]
      · rw [pyDictGet_set_ne _ _ _ _ (fun hh => hk hh.symm), ih]
        simp [pyDictGet, hk]

/-- Lookup in the left-to-right union of a list of dicts: the last binding
of the key anywhere in the concatenation wins. -/
theorem pyDictGet_fold_union (ms : List (List (String × Option String)))
    (m0 : List (String × Option String)) (k : String) :
    pyDictGet (ms.foldl pyDictUnion m0) k =
      match pyDictGet ms.flatten.reverse k with
      | some v => some v
      | none => pyDictGet m0 k := by
  induction ms using List.reverseRecOn with
  | nil => simp [pyDictGet]
  | append_singleton l mm ih =>
      rw [List.foldl_append]
      simp only [List.foldl_cons, List.foldl_nil]
      rw [pyDictGet_union, ih, List.flatten_append, List.reverse_append,
        pyDictGet_append]
      cases hg : pyDictGet mm.reverse k <;>
        simp [hg, List.flatten]

/-- C8: `map_of_output_alias_to_input_alias` is the left-to-right union of
the own map of every transform with last-write-wins on key collisions (lookup
equals the last binding of the key in the concatenation of all step maps in
order), collisions raise no error, and with zero transformations the map is
empty. -/
theorem c8_map_union_last_write_wins (q : DBQuery) (k : String) :
    pyDictGet q.map_of_output_alias_to_input_alias k
      = pyDictGet ((q.transformations.map (fun t =>
          t.map_of_output_alias_to_input_alias)).flatten).reverse k ∧
    ({ q with transformations := [] } : DBQuery).map_of_output_alias_to_input_alias
      = [] := by
  refine ⟨?_, rfl⟩
  have h := pyDictGet_fold_union
    (q.transformations.map (fun t => t.map_of_output_alias_to_input_alias)) [] k
  rw [List.foldl_map] at h
  show pyDictGet (q.transformations.foldl (fun m transform =>
    pyDictUnion m transform.map_of_output_alias_to_input_alias) []) k = _
  rw [h]
  cases hg : pyDictGet ((q.transformations.map (fun t =>
      t.map_of_output_alias_to_input_alias)).flatten).reverse k <;>
    simp [hg, pyDictGet]

/-- C1: contrary to the claim (and the spec), the code computes the uniqueness-mapping
list of every prefix step against the initial aliases — the binding
`input_aliases = initial_aliases` is never folded forward inside the list
comprehension — rather than against the alias set actually available as
input to that step.  On `exQ` (initial alias `a`, step 0 renames it to `b`,
step 1 renames its input to `c`), tracing alias `c` back from step index 2
returns `None`, while the spec-prescribed walk resolves it to the initial
column aliased `a`. -/
theorem c1_uc_mappings_computed_at_initial_aliases :
    exQ._get_initial_alias_by_input_alias 2 "c" = none ∧
    exQ.get_initial_column_by_input_alias 2 "c" = none ∧
    exQ.spec_get_initial_alias_by_input_alias 2 "c" = some "a" ∧
    findInitialColumn exQ.initial_columns "a" = some exCol ∧
    (exQ.transformations.take 2).map (fun t =>
        t.get_unique_constraint_mappings exQ.initial_aliases)
      ≠ exQ.spec_uc_mappings_per_step 2 :=
  ⟨rfl, rfl, rfl, rfl, by decide⟩

/-- Alias-map lookup over an appended binding. -/
theorem lookupJp_append (m : List (JpPath × Nat)) (en : JpPath × Nat) (p : JpPath) :
    lookupJp (m ++ [en]) p =
      match lookupJp m p with
      | some v => some v
      | none => if en.1 = p then some en.2 else none := by
  induction m with
  | nil => simp [lookupJp]
  | cons e m ih =>
      by_cases h : e.1 = p
      · simp [lookupJp, h]
      · simp [lookupJp, h, ih]

/-- Appending a binding preserves every lookup that already succeeded. -/
theorem lookupJp_append_some (m : List (JpPath × Nat)) (en : JpPath × Nat)
    (p : JpPath) (v : Nat) (h : lookupJp m p = some v) :
    lookupJp (m ++ [en]) p = some v := by
  rw [lookupJp_append, h]

/-- A fresh binding is found after appending it. -/
theorem lookupJp_append_new (m : List (JpPath × Nat)) (p : JpPath) (v : Nat)
    (h : lookupJp m p = none) : lookupJp (m ++ [(p, v)]) p = some v := by
  rw [lookupJp_append, h]; simp

/-- Decomposing a successful lookup in an extended map. -/
theorem lookupJp_append_some_iff (m : List (JpPath × Nat)) (q : JpPath) (w : Nat)
    (p : JpPath) (v : Nat) :
    lookupJp (m ++ [(q, w)]) p = some v ↔
      lookupJp m p = some v ∨ (lookupJp m p = none ∧ q = p ∧ w = v) := by
  rw [lookupJp_append]
  cases h : lookupJp m p with
  | some u => simp
  | none =>
      by_cases hq : q = p <;> simp [hq]

/-- A lookup succeeds exactly when the key is bound. -/
theorem lookupJp_isSome_iff (m : List (JpPath × Nat)) (p : JpPath) :
    (lookupJp m p).isSome ↔ p ∈ m.map Prod.fst := by
  induction m with
  | nil => simp [lookupJp]
  | cons e m ih =>
      by_cases h : e.1 = p
      · simp [lookupJp, h]
      · rw [lookupJp, if_neg h, ih]
        simp only [List.map_cons, List.mem_cons]
        constructor
        · exact Or.inr
        · rintro (hh | hh)
          · exact absurd hh.symm h
          · exact hh

/-- A successful lookup exhibits a bound entry. -/
theorem lookupJp_some_mem (m : List (JpPath × Nat)) (p : JpPath) (v : Nat)
    (h : lookupJp m p = some v) : (p, v) ∈ m := by
  induction m with
  | nil => simp [lookupJp] at h
  | cons e m ih =>
      by_cases he : e.1 = p
      · rw [lookupJp, if_pos he] at h
        obtain rfl : e.2 = v := by simpa using h
        exact List.mem_cons.mpr (Or.inl (by rw [← he]))
      · rw [lookupJp, if_neg he] at h
        exact List.mem_cons_of_mem e (ih h)

/-- Two one-longer lists agree iff their fronts and last elements agree. -/
theorem append_singleton_inj {α : Type} {p q : List α} {e f : α}
    (h : p ++ [e] = q ++ [f]) : p = q ∧ e = f := by
  have h2 := congrArg List.reverse h
  simp only [List.reverse_append, List.reverse_singleton, List.singleton_append,
    List.cons.injEq] at h2
  exact ⟨by simpa using congrArg List.reverse h2.2, h2.1⟩

/-- Membership in `prefixesFrom done rest`: exactly the extensions of `done`
by a nonempty prefix of `rest`. -/
theorem mem_prefixesFrom (rest : List Edge) :
    ∀ (done p : JpPath), p ∈ prefixesFrom done rest ↔
      ∃ n, 0 < n ∧ n ≤ rest.length ∧ p = done ++ rest.take n := by
  induction rest with
  | nil =>
      intro done p
      simp [prefixesFrom]
      omega
  | cons e rest ih =>
      intro done p
      simp only [prefixesFrom, List.mem_cons, ih (done ++ [e])]
      constructor
      · rintro (rfl | ⟨n, hn0, hnle, rfl⟩)
        · exact ⟨1, Nat.one_pos, by simp, by simp⟩
        · exact ⟨n + 1, Nat.succ_pos _, by simpa using hnle,
            by simp [List.take_succ_cons, List.append_assoc]⟩
      · rintro ⟨n, hn0, hnle, rfl⟩
        match n, hn0 with
        | 1, _ => left; simp
        | (m + 2), _ =>
            right
            exact ⟨m + 1, Nat.succ_pos _, by simpa using hnle,
              by simp [List.take_succ_cons, List.append_assoc]⟩

/-- Every traversed prefix is nonempty. -/
theorem mem_prefixesFrom_ne_nil (rest : List Edge) (p : JpPath)
    (h : p ∈ prefixesFrom [] rest) : p ≠ [] := by
  rw [mem_prefixesFrom] at h
  obtain ⟨n, hn0, hnle, rfl⟩ := h
  simp only [List.nil_append, ne_eq]
  intro hcon
  have hlen := congrArg List.length hcon
  rw [List.length_take] at hlen
  simp only [List.length_nil] at hlen
  omega

/-- The seed state satisfies the build invariant. -/
theorem mapInv_init (name : Nat → Nat → String) : MapInv name initState := by
  refine ⟨rfl, by simp [initState], ?_, by simp [initState], ?_, ?_, rfl, by simp [initState], ?_⟩
  · intro pr hpr
    simp only [initState, List.mem_singleton] at hpr
    subst hpr
    exact Nat.zero_lt_one
  · intro p e h
    rw [lookupJp_isSome_iff] at h
    simp [initState] at h
  · intro k
    simp only [initState, List.not_mem_nil, false_iff, not_exists]
    intro p e l r
    rintro ⟨_, h2, _⟩
    have := lookupJp_some_mem _ _ _ h2
    simp [initState] at this
  · intro j hj
    simp [initState] at hj

/-- Case of `resolveRight` when the prefix is already cached. -/
theorem resolveRight_found (st : BuildState) (rp : JpPath) (r : Nat)
    (h : lookupJp st.jp_path_alias_map rp = some r) :
    resolveRight st rp = (st, r) := by
  unfold resolveRight
  rw [h]

/-- Case of `resolveRight` when the prefix is new: bind a fresh alias. -/
theorem resolveRight_new (st : BuildState) (rp : JpPath)
    (h : lookupJp st.jp_path_alias_map rp = none) :
    resolveRight st rp =
      ({ st with
         jp_path_alias_map := st.jp_path_alias_map ++ [(rp, st.next_alias)],
         next_alias := st.next_alias + 1 },
       st.next_alias) := by
  unfold resolveRight
  rw [h]

/-- Case of `emitJoin` when the join key was already seen: no new clause. -/
theorem emitJoin_mem (name : Nat → Nat → String) (st : BuildState)
    (left right : Nat) (jp : Edge)
    (h : mkJoinKey name left right jp ∈ st.jp_path_unique_set) :
    emitJoin name st left right jp = st := by
  simp only [emitJoin]
  rw [if_pos h]

/-- Case of `emitJoin` on an unseen key: record it and append the outer join. -/
theorem emitJoin_new (name : Nat → Nat → String) (st : BuildState)
    (left right : Nat) (jp : Edge)
    (h : mkJoinKey name left right jp ∉ st.jp_path_unique_set) :
    emitJoin name st left right jp =
      { st with
        jp_path_unique_set := mkJoinKey name left right jp :: st.jp_path_unique_set,
        from_clause := st.from_clause ++
          [⟨right, (left, (mkJoinKey name left right jp).left_name),
            (right, (mkJoinKey name left right jp).right_name), true⟩] } := by
  simp only [emitJoin]
  rw [if_neg h]

/-- Binding a fresh child prefix (parent bound to `right`) and recording its
join clause preserves the build invariant. -/
theorem mapInv_extend (name : Nat → Nat → String) (st : BuildState)
    (inv : MapInv name st) (done : JpPath) (jp : Edge) (right : Nat)
    (hdone : lookupJp st.jp_path_alias_map done = some right)
    (hrp : lookupJp st.jp_path_alias_map (done ++ [jp]) = none) :
    MapInv name
      { jp_path_alias_map :=
          st.jp_path_alias_map ++ [(done ++ [jp], st.next_alias)],
        next_alias := st.next_alias + 1,
        jp_path_unique_set :=
          mkJoinKey name right st.next_alias jp :: st.jp_path_unique_set,
        from_clause := st.from_clause ++
          [⟨st.next_alias,
            (right, (mkJoinKey name right st.next_alias jp).left_name),
            (st.next_alias, (mkJoinKey name right st.next_alias jp).right_name),
            true⟩] } := by
  have hnotin : done ++ [jp] ∉ st.jp_path_alias_map.map Prod.fst := by
    rw [← lookupJp_isSome_iff]
    simp [hrp]
  have hvnot : st.next_alias ∉ st.jp_path_alias_map.map Prod.snd := by
    intro hv
    obtain ⟨pr, hpr, hpr2⟩ := List.mem_map.1 hv
    have := inv.vals_lt pr hpr
    omega
  have hrnot : st.next_alias ∉ st.from_clause.map JoinClause.right_table := by
    intro hv
    obtain ⟨j, hj, hj2⟩ := List.mem_map.1 hv
    have := inv.joins_rights_lt j hj
    omega
  refine ⟨?_, ?_, ?_, ?_, ?_, ?_, ?_, ?_, ?_⟩
  · exact lookupJp_append_some _ _ _ _ inv.root
  · rw [List.map_append]
    apply List.Nodup.append inv.keys_nodup (List.nodup_singleton _)
    intro a ha hb
    simp only [List.map_cons, List.map_nil, List.mem_singleton] at hb
    subst hb
    exact hnotin ha
  · intro pr hpr
    dsimp only at hpr ⊢
    rcases List.mem_append.1 hpr with hpr | hpr
    · have := inv.vals_lt pr hpr
      omega
    · simp only [List.mem_singleton] at hpr
      subst hpr
      omega
  · rw [List.map_append]
    apply List.Nodup.append inv.vals_nodup (List.nodup_singleton _)
    intro a ha hb
    simp only [List.map_cons, List.map_nil, List.mem_singleton] at hb
    subst hb
    exact hvnot ha
  · intro p e h
    rw [lookupJp_isSome_iff, List.map_append, List.mem_append] at h
    rcases h with h | h
    · have hs := inv.parent_present p e ((lookupJp_isSome_iff _ _).2 h)
      obtain ⟨v, hv⟩ := Option.isSome_iff_exists.1 hs
      simp [lookupJp_append_some _ _ _ _ hv]
    · simp only [List.map_cons, List.map_nil, List.mem_singleton] at h
      obtain ⟨rfl, rfl⟩ := append_singleton_inj h
      simp [lookupJp_append_some _ _ _ _ hdone]
  · intro k
    constructor
    · intro hk
      rcases List.mem_cons.1 hk with rfl | hk
      · exact ⟨done, jp, right, st.next_alias,
          lookupJp_append_some _ _ _ _ hdone,
          lookupJp_append_new _ _ _ hrp, rfl⟩
      · obtain ⟨p, e, l, r, hl, hr, hke⟩ := (inv.seen_iff k).1 hk
        exact ⟨p, e, l, r, lookupJp_append_some _ _ _ _ hl,
          lookupJp_append_some _ _ _ _ hr, hke⟩
    · rintro ⟨p, e, l, r, hl, hr, rfl⟩
      rcases (lookupJp_append_some_iff _ _ _ _ _).1 hr with hr2 | ⟨hrnone, hPeq, hrval⟩
      · have hsome : (lookupJp st.jp_path_alias_map p).isSome :=
          inv.parent_present p e (by simp [hr2])
        obtain ⟨l0, hl0⟩ := Option.isSome_iff_exists.1 hsome
        have hl0x := lookupJp_append_some st.jp_path_alias_map
          (done ++ [jp], st.next_alias) p l0 hl0
        rw [hl] at hl0x
        obtain rfl : l = l0 := by simpa using hl0x
        exact List.mem_cons_of_mem _
          ((inv.seen_iff _).2 ⟨p, e, l, r, hl0, hr2, rfl⟩)
      · obtain ⟨rfl, rfl⟩ := append_singleton_inj hPeq
        subst hrval
        have hl2 := lookupJp_append_some st.jp_path_alias_map
          (done ++ [jp], st.next_alias) done right hdone
        rw [hl] at hl2
        obtain rfl : l = right := by simpa using hl2
        exact List.mem_cons_self _ _
  · simp only [List.length_append, List.length_cons, List.length_nil]
    have := inv.joins_card
    omega
  · rw [List.map_append]
    apply List.Nodup.append inv.joins_rights_nodup (List.nodup_singleton _)
    intro a ha hb
    simp only [List.map_cons, List.map_nil, List.mem_singleton] at hb
    subst hb
    exact hrnot ha
  · intro j hj
    dsimp only at hj ⊢
    rcases List.mem_append.1 hj with hj | hj
    · have := inv.joins_rights_lt j hj
      omega
    · simp only [List.mem_singleton] at hj
      subst hj
      dsimp only
      omega

/-- Main induction for the edge loop of `_process_initial_column`: with the
invariant holding and the processed prefix `done` bound to `right`, the loop
never raises `KeyError`, preserves the invariant and all existing bindings,
binds exactly the new prefixes extending `done` through `rest`, and returns
the instance bound to the full path. -/
theorem processEdges_spec (name : Nat → Nat → String) (rest : List Edge) :
    ∀ (done : JpPath) (st : BuildState) (right : Nat),
      MapInv name st →
      lookupJp st.jp_path_alias_map done = some right →
      ∃ st2 right2,
        processEdges name done rest right st = .ok (st2, right2) ∧
        MapInv name st2 ∧
        (∀ p v, lookupJp st.jp_path_alias_map p = some v →
          lookupJp st2.jp_path_alias_map p = some v) ∧
        (∀ p : JpPath, (lookupJp st2.jp_path_alias_map p).isSome ↔
          ((lookupJp st.jp_path_alias_map p).isSome ∨ p ∈ prefixesFrom done rest)) ∧
        lookupJp st2.jp_path_alias_map (done ++ rest) = some right2 := by
  induction rest with
  | nil =>
      intro done st right inv hdone
      exact ⟨st, right, rfl, inv, fun _ _ h => h,
        fun p => by simp [prefixesFrom], by simpa using hdone⟩
  | cons jp rest ih =>
      intro done st right inv hdone
      cases hrp : lookupJp st.jp_path_alias_map (done ++ [jp]) with
      | some r =>
          have hseen : mkJoinKey name right r jp ∈ st.jp_path_unique_set :=
            (inv.seen_iff _).2 ⟨done, jp, right, r, hdone, hrp, rfl⟩
          obtain ⟨st2, right2, hrun, inv2, hmono, hiff, hfin⟩ :=
            ih (done ++ [jp]) st r inv hrp
          refine ⟨st2, right2, ?_, inv2, hmono, ?_, ?_⟩
          · simp only [processEdges, hdone,
              resolveRight_found st (done ++ [jp]) r hrp,
              emitJoin_mem name st right r jp hseen]
            exact hrun
          · intro p
            rw [hiff p]
            simp only [prefixesFrom, List.mem_cons]
            constructor
            · rintro (h | h)
              · exact Or.inl h
              · exact Or.inr (Or.inr h)
            · rintro (h | rfl | h)
              · exact Or.inl h
              · exact Or.inl (by simp [hrp])
              · exact Or.inr h
          · simpa using hfin
      | none =>
          have hkey : mkJoinKey name right st.next_alias jp ∉ st.jp_path_unique_set := by
            intro hmem
            obtain ⟨p, e, l, r, hl, hr, hk⟩ := (inv.seen_iff _).1 hmem
            have hrval : st.next_alias = r := by
              have := congrArg JoinKey.right hk
              simpa [mkJoinKey] using this
            have := inv.vals_lt _ (lookupJp_some_mem _ _ _ hr)
            omega
          have invB := mapInv_extend name st inv done jp right hdone hrp
          obtain ⟨st2, right2, hrun, inv2, hmono, hiff, hfin⟩ :=
            ih (done ++ [jp])
              { jp_path_alias_map :=
                  st.jp_path_alias_map ++ [(done ++ [jp], st.next_alias)],
                next_alias := st.next_alias + 1,
                jp_path_unique_set :=
                  mkJoinKey name right st.next_alias jp :: st.jp_path_unique_set,
                from_clause := st.from_clause ++
                  [⟨st.next_alias,
                    (right, (mkJoinKey name right st.next_alias jp).left_name),
                    (st.next_alias,
                      (mkJoinKey name right st.next_alias jp).right_name),
                    true⟩] }
              st.next_alias invB (lookupJp_append_new _ _ _ hrp)
          refine ⟨st2, right2, ?_, inv2, ?_, ?_, ?_⟩
          · simp only [processEdges, hdone,
              resolveRight_new st (done ++ [jp]) hrp,
              emitJoin_new name
                { jp_path_alias_map :=
                    st.jp_path_alias_map ++ [(done ++ [jp], st.next_alias)],
                  next_alias := st.next_alias + 1,
                  jp_path_unique_set := st.jp_path_unique_set,
                  from_clause := st.from_clause }
                right st.next_alias jp hkey]
            exact hrun
          · intro p v h
            exact hmono p v (lookupJp_append_some _ _ _ _ h)
          · intro p
            rw [hiff p]
            have hB : (lookupJp (st.jp_path_alias_map ++
                [(done ++ [jp], st.next_alias)]) p).isSome
                ↔ ((lookupJp st.jp_path_alias_map p).isSome ∨ done ++ [jp] = p) := by
              rw [lookupJp_isSome_iff, List.map_append, List.mem_append,
                lookupJp_isSome_iff]
              simp [eq_comm]
            rw [hB]
            simp only [prefixesFrom, List.mem_cons]
            constructor
            · rintro ((h | rfl) | h)
              · exact Or.inl h
              · exact Or.inr (Or.inl rfl)
              · exact Or.inr (Or.inr h)
            · rintro (h | rfl | h)
              · exact Or.inl (Or.inl h)
              · exact Or.inl (Or.inr rfl)
              · exact Or.inr h
          · simpa using hfin

/-- Unfolding `_process_initial_column` when the edge loop succeeds. -/
theorem _process_initial_column_eq (name : Nat → Nat → String)
    (st st1 : BuildState) (right : Nat) (col : InitialColumn)
    (h : processEdges name [] (normalizedJpPath col.jp_path) 0 st = .ok (st1, right)) :
    _process_initial_column name st col
      = .ok (st1, ⟨right, name col.reloid col.attnum, col.alias_⟩) := by
  simp only [_process_initial_column]
  rw [h]

/-- Fold of the edge loop over all initial columns: the build succeeds,
the invariant holds at the end, earlier bindings persist, the bound
prefixes are exactly the seed ones plus the nonempty path prefixes of
every column, and each output column is labeled with the alias of its
column and
taken from the instance the final map binds to its full path. -/
theorem processColumns_spec (name : Nat → Nat → String) (cs : List InitialColumn) :
    ∀ st : BuildState, MapInv name st →
      ∃ (st2 : BuildState) (outs : List LabeledColumn),
        (∀ outs0, processColumns name cs st outs0 = .ok (st2, outs0 ++ outs)) ∧
        MapInv name st2 ∧
        (∀ p v, lookupJp st.jp_path_alias_map p = some v →
          lookupJp st2.jp_path_alias_map p = some v) ∧
        (∀ p : JpPath, (lookupJp st2.jp_path_alias_map p).isSome ↔
          ((lookupJp st.jp_path_alias_map p).isSome ∨
            ∃ c ∈ cs, p ∈ prefixesFrom [] c.normPath)) ∧
        List.Forall₂ (fun (c : InitialColumn) (out : LabeledColumn) =>
          out.label = c.alias_ ∧ out.column_name = name c.reloid c.attnum ∧
          lookupJp st2.jp_path_alias_map c.normPath = some out.table_instance)
          cs outs := by
  induction cs with
  | nil =>
      intro st inv
      exact ⟨st, [], fun outs0 => by simp [processColumns], inv,
        fun _ _ h => h, fun p => by simp, List.Forall₂.nil⟩
  | cons c cs ih =>
      intro st inv
      obtain ⟨st1, right1, hrun1, inv1, hmono1, hiff1, hfin1⟩ :=
        processEdges_spec name c.normPath [] st 0 inv inv.root
      obtain ⟨st2, outs, hrun2, inv2, hmono2, hiff2, hforall⟩ := ih st1 inv1
      have hfin1x : lookupJp st1.jp_path_alias_map c.normPath = some right1 := by
        simpa using hfin1
      refine ⟨st2, ⟨right1, name c.reloid c.attnum, c.alias_⟩ :: outs,
        ?_, inv2, ?_, ?_, ?_⟩
      · intro outs0
        simp only [processColumns,
          _process_initial_column_eq name st st1 right1 c
            (by simpa [InitialColumn.normPath] using hrun1),
          hrun2 (outs0 ++ [⟨right1, name c.reloid c.attnum, c.alias_⟩])]
        simp
      · exact fun p v h => hmono2 p v (hmono1 p v h)
      · intro p
        rw [hiff2 p, hiff1 p]
        constructor
        · rintro ((h | h) | ⟨c2, hc2, h⟩)
          · exact Or.inl h
          · exact Or.inr ⟨c, List.mem_cons_self c cs, h⟩
          · exact Or.inr ⟨c2, List.mem_cons_of_mem c hc2, h⟩
        · rintro (h | ⟨c2, hc2, h⟩)
          · exact Or.inl (Or.inl h)
          · rcases List.mem_cons.1 hc2 with rfl | hc2
            · exact Or.inl (Or.inr h)
            · exact Or.inr ⟨c2, hc2, h⟩
      · exact List.Forall₂.cons ⟨rfl, rfl, hmono2 _ _ hfin1x⟩ hforall

/-- Labels of the built output columns are the column aliases in order. -/
theorem forall2_labels {name : Nat → Nat → String} {st2 : BuildState}
    {cs : List InitialColumn} {outs : List LabeledColumn}
    (h : List.Forall₂ (fun c out =>
      out.label = c.alias_ ∧ out.column_name = name c.reloid c.attnum ∧
      lookupJp st2.jp_path_alias_map c.normPath = some out.table_instance) cs outs) :
    outs.map LabeledColumn.label = cs.map InitialColumn.alias_ := by
  induction h with
  | nil => rfl
  | cons hc _ ihh => simp [hc.1, ihh]

/-- C2: `initial_relation` always succeeds; the alias map binds every
join-path prefix at most once (so two initial columns sharing a prefix
resolve it to the identical aliased table instance), the bound prefixes are
exactly the empty one plus every traversed nonempty prefix, the built
relation contains no duplicate join clause, the number of join clauses is
exactly the number of distinct nonempty prefixes (tree edges) traversed,
and each output column is taken from the instance the map binds to its
full path of the matching column. -/
theorem c2_shared_prefix_single_join (q : DBQuery) :
    ∃ (st : BuildState) (outs : List LabeledColumn),
      q.initial_relation = Except.ok (st, outs) ∧
      (st.jp_path_alias_map.map Prod.fst).Nodup ∧
      (∀ p : JpPath, (lookupJp st.jp_path_alias_map p).isSome ↔
        (p = [] ∨ p ∈ traversedPrefixes q.initial_columns)) ∧
      st.from_clause.Nodup ∧
      st.from_clause.length
        = (traversedPrefixes q.initial_columns).toFinset.card ∧
      List.Forall₂ (fun (c : InitialColumn) (out : LabeledColumn) =>
        out.label = c.alias_ ∧
        lookupJp st.jp_path_alias_map c.normPath = some out.table_instance)
        q.initial_columns outs := by
  obtain ⟨st2, outs, hrun, inv2, hmono, hiff, hforall⟩ :=
    processColumns_spec q.column_name q.initial_columns initState
      (mapInv_init q.column_name)
  have hiff2 : ∀ p : JpPath, (lookupJp st2.jp_path_alias_map p).isSome ↔
      (p = [] ∨ p ∈ traversedPrefixes q.initial_columns) := by
    intro p
    rw [hiff p]
    have h0 : (lookupJp initState.jp_path_alias_map p).isSome ↔ p = [] := by
      simp only [initState, lookupJp]
      by_cases hp : ([] : JpPath) = p
      · rw [if_pos hp]
        simp [← hp]
      · rw [if_neg hp]
        exact iff_of_false (by simp) fun hh => hp hh.symm
    rw [h0]
    simp [traversedPrefixes]
  refine ⟨st2, outs, hrun [], inv2.keys_nodup, hiff2, ?_, ?_, ?_⟩
  · exact inv2.joins_rights_nodup.of_map
  · have hlen : st2.from_clause.length + 1 = st2.jp_path_alias_map.length :=
      inv2.joins_card
    have hfin : (st2.jp_path_alias_map.map Prod.fst).toFinset
        = insert ([] : JpPath) (traversedPrefixes q.initial_columns).toFinset := by
      ext a
      simp only [List.mem_toFinset, Finset.mem_insert]
      rw [← lookupJp_isSome_iff, hiff2 a]
    have hnotmem : ([] : JpPath) ∉ (traversedPrefixes q.initial_columns).toFinset := by
      rw [List.mem_toFinset]
      intro hmem
      obtain ⟨c, hc, hmem⟩ := List.mem_flatMap.1 hmem
      exact mem_prefixesFrom_ne_nil _ _ hmem rfl
    have hcard1 : (st2.jp_path_alias_map.map Prod.fst).toFinset.card
        = st2.jp_path_alias_map.length := by
      rw [List.toFinset_card_of_nodup inv2.keys_nodup, List.length_map]
    rw [hfin, Finset.card_insert_of_not_mem hnotmem] at hcard1
    omega
  · exact hforall.imp (fun _ _ h => ⟨h.1, h.2.2⟩)

/-- C6: with zero transformation steps `transformed_relation` is the initial
relation itself (the empty chain is the identity), and the output aliases
of the relation are exactly the aliases of the initial columns, in order. -/
theorem c6_zero_transforms_identity (q : DBQuery) (h : q.transformations = []) :
    q.transformed_relation = q.initial_relation ∧
    ∃ (st : BuildState) (outs : List LabeledColumn),
      q.initial_relation = Except.ok (st, outs) ∧
      outs.map LabeledColumn.label = q.initial_aliases := by
  constructor
  · simp [DBQuery.transformed_relation, h]
  · obtain ⟨st2, outs, hrun, _, _, _, hforall⟩ :=
      processColumns_spec q.column_name q.initial_columns initState
        (mapInv_init q.column_name)
    exact ⟨st2, outs, hrun [], forall2_labels hforall⟩

/-- Witness for C6 on a two-column, zero-transform query. -/
theorem c6_witness :
    exQ0.transformed_relation = exQ0.initial_relation ∧
    ∃ (st : BuildState) (outs : List LabeledColumn),
      exQ0.initial_relation = Except.ok (st, outs) ∧
      outs.map LabeledColumn.label = exQ0.initial_aliases :=
  c6_zero_transforms_identity exQ0 rfl

end Mathesar
